import Mathlib

/-!
Verification of the outlier-clipping transform `clean_outliers` from
`src/visualisation.py`.

The function receives one numeric column, computes the first and third
quartiles with numpy's default linear-interpolation quantile estimator,
derives the Tukey fences `lower_limit = Q1 - 1.5*IQR` and
`upper_limit = Q3 + 1.5*IQR`, and then mutates the column in place in two
sequential passes: first every value `>= upper_limit` is set to
`upper_limit`, then (over the already-updated data) every value
`<= lower_limit` is set to `lower_limit`.

Numeric values are modelled as rationals; the arithmetic performed by the
source on the inputs of interest is exact, so the rational model reproduces
it faithfully.  Fallible behaviour (numpy failing on an empty column, or
on a column containing a non-numeric token) is modelled by an `Except`
layer over a column of raw entries.
-/

namespace Visualisation

/-- One entry of a raw data column: either a numeric value (modelled as a
rational) or a non-numeric text token such as a string. -/
inductive Entry where
  | num (v : ℚ)
  | text (s : String)
deriving DecidableEq

/-- Numeric interpretation of an entry; a text token has none. -/
def Entry.toNum : Entry → Option ℚ
  | .num v => some v
  | .text _ => none

/-- Numeric interpretation of a whole column: `some` list of rationals when
every entry is numeric, `none` as soon as one entry is not. -/
def toNums : List Entry → Option (List ℚ)
  | [] => some []
  | e :: es =>
    match e.toNum, toNums es with
    | some v, some vs => some (v :: vs)
    | _, _ => none

/-- The ascending sorted copy of the column on which the percentile
computation works. -/
def sortedData (xs : List ℚ) : List ℚ :=
  List.insertionSort (· ≤ ·) xs

/-- The virtual position `h = q * (n - 1)` at which numpy's
linear-interpolation method reads the sorted data of a column of length
`n`. -/
def vpos (xs : List ℚ) (q : ℚ) : ℚ :=
  q * ((xs.length - 1 : ℕ) : ℚ)

/-- The lower of the two closest ranks around the virtual position. -/
def rankLo (xs : List ℚ) (q : ℚ) : ℕ :=
  (⌊vpos xs q⌋).toNat

/-- The upper of the two closest ranks around the virtual position, capped
at the last index of the column. -/
def rankHi (xs : List ℚ) (q : ℚ) : ℕ :=
  min (rankLo xs q + 1) (xs.length - 1)

/-- Embedding of `np.quantile xs q` with numpy's default linear-interpolation
method: the value at virtual position `h = q * (n - 1)` of the sorted data
`s`, namely `s[lo] + (h - lo) * (s[hi] - s[lo])` for the two closest ranks
`lo` and `hi`. -/
def npQuantile (xs : List ℚ) (q : ℚ) : ℚ :=
  let s := sortedData xs
  s.getD (rankLo xs q) 0 +
    (vpos xs q - (rankLo xs q : ℚ)) * (s.getD (rankHi xs q) 0 - s.getD (rankLo xs q) 0)

/-- The lower Tukey fence computed by `clean_outliers`:
`lower_limit = q1 - 1.5 * iqr` where `q1 = np.quantile(data, 0.25)` and
`iqr = q3 - q1`. -/
def lower_limit (xs : List ℚ) : ℚ :=
  let q1 := npQuantile xs (1/4)
  let q3 := npQuantile xs (3/4)
  q1 - 1.5 * (q3 - q1)

/-- The upper Tukey fence computed by `clean_outliers`:
`upper_limit = q3 + 1.5 * iqr` where `q3 = np.quantile(data, 0.75)` and
`iqr = q3 - q1`. -/
def upper_limit (xs : List ℚ) : ℚ :=
  let q1 := npQuantile xs (1/4)
  let q3 := npQuantile xs (3/4)
  q3 + 1.5 * (q3 - q1)

/-- Embedding of the body of `clean_outliers` on a numeric column: the first
pass sets every value `>= upper_limit` to `upper_limit`; the second pass runs
over the already-updated data and sets every value `<= lower_limit` to
`lower_limit`, exactly as the two in-place mask assignments in the source. -/
def clean_outliers (xs : List ℚ) : List ℚ :=
  let upper := upper_limit xs
  let lower := lower_limit xs
  (xs.map fun v => if v ≥ upper then upper else v).map
    fun v => if v ≤ lower then lower else v

/-- The two failure causes of `clean_outliers`: an empty column (the
percentile of an empty sequence is undefined, numpy fails before any value
is produced) and a column containing an entry that cannot be interpreted as
a real number (the quantile arithmetic is undefined on it). -/
inductive CleanError where
  | emptyInput
  | invalidInput
deriving DecidableEq

/-- Embedding of `clean_outliers` on a raw column, with its failure modes
made explicit: a column containing a non-numeric entry fails with
`invalidInput`, an empty column fails with `emptyInput`, and otherwise the
numeric transform runs. -/
def clean_outliers_checked (xs : List Entry) : Except CleanError (List ℚ) :=
  match toNums xs with
  | none => .error .invalidInput
  | some vs => if vs.isEmpty then .error .emptyInput else .ok (clean_outliers vs)

/-- Modelled from the spec's words, for comparison with `npQuantile`: the
conventional quartile estimator with linear interpolation between closest
ranks, reading the value at virtual position `h = q * (n - 1)` as
`s[⌊h⌋] + (h - ⌊h⌋) * (s[⌈h⌉] - s[⌊h⌋])` on the sorted data `s`. -/
def specQuantile (xs : List ℚ) (q : ℚ) : ℚ :=
  let s := sortedData xs
  let h := vpos xs q
  s.getD (⌊h⌋).toNat 0 + (h - (⌊h⌋ : ℚ)) * (s.getD (⌈h⌉).toNat 0 - s.getD (⌊h⌋).toNat 0)

/-! Basic facts about the sorted copy of the column. -/

lemma sortedData_sorted (xs : List ℚ) : (sortedData xs).Sorted (· ≤ ·) :=
  List.sorted_insertionSort _ xs

lemma sortedData_length (xs : List ℚ) : (sortedData xs).length = xs.length :=
  List.length_insertionSort _ xs

lemma sortedData_mem {xs : List ℚ} {v : ℚ} : v ∈ sortedData xs ↔ v ∈ xs :=
  List.mem_insertionSort _

lemma sortedData_getD_mono (xs : List ℚ) {i j : ℕ} (hij : i ≤ j)
    (hj : j < xs.length) :
    (sortedData xs).getD i 0 ≤ (sortedData xs).getD j 0 := by
  have hj' : j < (sortedData xs).length := by rw [sortedData_length]; exact hj
  have hi' : i < (sortedData xs).length := lt_of_le_of_lt hij hj'
  rw [List.getD_eq_getElem _ _ hi', List.getD_eq_getElem _ _ hj']
  exact (sortedData_sorted xs).rel_get_of_le (a := ⟨i, hi'⟩) (b := ⟨j, hj'⟩) hij

/-! Position and rank bounds for the quantile computation, for `0 ≤ q ≤ 1`
on a non-empty column. -/

lemma vpos_nonneg (xs : List ℚ) {q : ℚ} (hq : 0 ≤ q) : 0 ≤ vpos xs q :=
  mul_nonneg hq (Nat.cast_nonneg _)

lemma rankLo_cast (xs : List ℚ) {q : ℚ} (hq : 0 ≤ q) :
    ((rankLo xs q : ℤ) : ℚ) = (⌊vpos xs q⌋ : ℚ) := by
  rw [rankLo, Int.toNat_of_nonneg (Int.floor_nonneg.2 (vpos_nonneg xs hq))]

lemma frac_nonneg (xs : List ℚ) {q : ℚ} (hq : 0 ≤ q) :
    0 ≤ vpos xs q - (rankLo xs q : ℚ) := by
  have h := rankLo_cast xs hq
  push_cast at h
  rw [h]
  have := Int.floor_le (vpos xs q)
  linarith

lemma frac_lt_one (xs : List ℚ) {q : ℚ} (hq : 0 ≤ q) :
    vpos xs q - (rankLo xs q : ℚ) < 1 := by
  have h := rankLo_cast xs hq
  push_cast at h
  rw [h]
  have := Int.lt_floor_add_one (vpos xs q)
  linarith

lemma rankLo_le_last (xs : List ℚ) {q : ℚ} (_hq0 : 0 ≤ q) (hq1 : q ≤ 1) :
    rankLo xs q ≤ xs.length - 1 := by
  have hle : vpos xs q ≤ ((xs.length - 1 : ℕ) : ℚ) := by
    have : vpos xs q ≤ 1 * ((xs.length - 1 : ℕ) : ℚ) :=
      mul_le_mul_of_nonneg_right hq1 (Nat.cast_nonneg _)
    linarith
  have hfl : ⌊vpos xs q⌋ ≤ (xs.length - 1 : ℕ) := by
    have := Int.floor_le_floor hle
    rwa [Int.floor_natCast] at this
  rw [rankLo]
  omega

lemma rankHi_le_last (xs : List ℚ) (q : ℚ) : rankHi xs q ≤ xs.length - 1 :=
  min_le_right _ _

lemma rankLo_le_rankHi (xs : List ℚ) {q : ℚ} (hq0 : 0 ≤ q) (hq1 : q ≤ 1) :
    rankLo xs q ≤ rankHi xs q :=
  le_min (Nat.le_succ _) (rankLo_le_last xs hq0 hq1)

lemma getD_rankLo_le_getD_rankHi (xs : List ℚ) (hne : xs ≠ []) {q : ℚ}
    (hq0 : 0 ≤ q) (hq1 : q ≤ 1) :
    (sortedData xs).getD (rankLo xs q) 0 ≤ (sortedData xs).getD (rankHi xs q) 0 := by
  apply sortedData_getD_mono xs (rankLo_le_rankHi xs hq0 hq1)
  have hlen : 0 < xs.length := List.length_pos.2 hne
  have := rankHi_le_last xs q
  omega

lemma npQuantile_ge (xs : List ℚ) (hne : xs ≠ []) {q : ℚ} (hq0 : 0 ≤ q) (hq1 : q ≤ 1) :
    (sortedData xs).getD (rankLo xs q) 0 ≤ npQuantile xs q := by
  have hab := getD_rankLo_le_getD_rankHi xs hne hq0 hq1
  have hg := frac_nonneg xs hq0
  rw [npQuantile]
  nlinarith

lemma npQuantile_le (xs : List ℚ) (hne : xs ≠ []) {q : ℚ} (hq0 : 0 ≤ q) (hq1 : q ≤ 1) :
    npQuantile xs q ≤ (sortedData xs).getD (rankHi xs q) 0 := by
  have hab := getD_rankLo_le_getD_rankHi xs hne hq0 hq1
  have hg := frac_lt_one xs hq0
  rw [npQuantile]
  nlinarith

lemma rankLo_mono (xs : List ℚ) {q q' : ℚ} (hqq : q ≤ q') :
    rankLo xs q ≤ rankLo xs q' := by
  have h : vpos xs q ≤ vpos xs q' :=
    mul_le_mul_of_nonneg_right hqq (Nat.cast_nonneg _)
  exact Int.toNat_le_toNat (Int.floor_le_floor h)

/-- Monotonicity of the linear-interpolation quantile estimator in the
requested probability, on a non-empty column. -/
lemma npQuantile_mono (xs : List ℚ) (hne : xs ≠ []) {q q' : ℚ}
    (h0 : 0 ≤ q) (hqq : q ≤ q') (h1 : q' ≤ 1) :
    npQuantile xs q ≤ npQuantile xs q' := by
  have h0' : 0 ≤ q' := le_trans h0 hqq
  have hq1 : q ≤ 1 := le_trans hqq h1
  have hlen : 0 < xs.length := List.length_pos.2 hne
  have hlo : rankLo xs q ≤ rankLo xs q' := rankLo_mono xs hqq
  rcases eq_or_lt_of_le hlo with heq | hlt
  · have hhi : rankHi xs q = rankHi xs q' := by rw [rankHi, rankHi, heq]
    have hvp : vpos xs q ≤ vpos xs q' :=
      mul_le_mul_of_nonneg_right hqq (Nat.cast_nonneg _)
    have hab := getD_rankLo_le_getD_rankHi xs hne h0 hq1
    rw [npQuantile, npQuantile, ← heq, ← hhi]
    nlinarith
  · have hup : npQuantile xs q ≤ (sortedData xs).getD (rankHi xs q) 0 :=
      npQuantile_le xs hne h0 hq1
    have hmid : (sortedData xs).getD (rankHi xs q) 0 ≤
        (sortedData xs).getD (rankLo xs q') 0 := by
      apply sortedData_getD_mono xs (le_trans (min_le_left _ _) hlt)
      have := rankLo_le_last xs h0' h1
      omega
    have hdn : (sortedData xs).getD (rankLo xs q') 0 ≤ npQuantile xs q' :=
      npQuantile_ge xs hne h0' h1
    linarith

lemma q1_le_q3 (xs : List ℚ) (hne : xs ≠ []) :
    npQuantile xs (1/4) ≤ npQuantile xs (3/4) :=
  npQuantile_mono xs hne (by norm_num) (by norm_num) (by norm_num)

lemma lower_limit_le_upper_limit (xs : List ℚ) (hne : xs ≠ []) :
    lower_limit xs ≤ upper_limit xs := by
  have h := q1_le_q3 xs hne
  rw [lower_limit, upper_limit]
  nlinarith

/-- Claim C4: on the concrete input `[1, 2, 3, 4, 5, 100]` the function computes
`Q1 = 2.25`, `Q3 = 4.75`, `IQR = 2.5`, `lower_limit = -1.5`,
`upper_limit = 8.5`, and returns `[1, 2, 3, 4, 5, 8.5]`. -/
theorem clean_outliers_example :
    npQuantile [1, 2, 3, 4, 5, 100] (1/4) = 2.25 ∧
    npQuantile [1, 2, 3, 4, 5, 100] (3/4) = 4.75 ∧
    npQuantile [1, 2, 3, 4, 5, 100] (3/4) - npQuantile [1, 2, 3, 4, 5, 100] (1/4) = 2.5 ∧
    lower_limit [1, 2, 3, 4, 5, 100] = -1.5 ∧
    upper_limit [1, 2, 3, 4, 5, 100] = 8.5 ∧
    clean_outliers [1, 2, 3, 4, 5, 100] = [1, 2, 3, 4, 5, 8.5] := by
  have h3 : Int.toNat 3 = 3 := rfl
  norm_num [npQuantile, vpos, rankLo, rankHi, sortedData, lower_limit, upper_limit,
    clean_outliers, List.insertionSort, List.orderedInsert, List.getD, h3]

/-- Claim C7: applied to an empty column, `clean_outliers` fails with the
empty-input error (the percentile of an empty sequence is undefined). -/
theorem clean_outliers_empty_fails :
    clean_outliers_checked [] = .error .emptyInput := by
  rfl

lemma getD_map_of_lt (f : ℚ → ℚ) (xs : List ℚ) {i : ℕ} (hi : i < xs.length) :
    (xs.map f).getD i 0 = f (xs.getD i 0) := by
  have hi' : i < (xs.map f).length := by simpa using hi
  rw [List.getD_eq_getElem _ _ hi', List.getD_eq_getElem _ _ hi, List.getElem_map]

lemma clean_outliers_length (xs : List ℚ) :
    (clean_outliers xs).length = xs.length := by
  simp [clean_outliers]

/-- The value of `clean_outliers` at one position, exactly as computed by
the two sequential in-place passes of the source. -/
lemma clean_outliers_getD (xs : List ℚ) {i : ℕ} (hi : i < xs.length) :
    (clean_outliers xs).getD i 0 =
      if (if xs.getD i 0 ≥ upper_limit xs then upper_limit xs else xs.getD i 0) ≤
          lower_limit xs then lower_limit xs
      else if xs.getD i 0 ≥ upper_limit xs then upper_limit xs else xs.getD i 0 := by
  simp only [clean_outliers]
  have hi' : i < (xs.map fun v =>
      if v ≥ upper_limit xs then upper_limit xs else v).length := by simpa using hi
  rw [getD_map_of_lt _ _ hi', getD_map_of_lt _ _ hi]

/-- Claim C1: on a non-empty numeric column, the element at every position of the
output is the input element clamped to the fences, boundary inclusive:
values `≥ upper_limit` become `upper_limit`, values `≤ lower_limit` become
`lower_limit`, and values strictly between the fences are unchanged. -/
theorem clean_outliers_pointwise_clamp (xs : List ℚ) (hne : xs ≠ []) (i : ℕ)
    (hi : i < xs.length) :
    (clean_outliers xs).getD i 0 =
      if xs.getD i 0 ≥ upper_limit xs then upper_limit xs
      else if xs.getD i 0 ≤ lower_limit xs then lower_limit xs
      else xs.getD i 0 := by
  have hlu := lower_limit_le_upper_limit xs hne
  rw [clean_outliers_getD xs hi]
  split_ifs <;> linarith

theorem clean_outliers_pointwise_clamp_witness :
    ([0, 10] : List ℚ) ≠ [] ∧ 0 < ([0, 10] : List ℚ).length ∧
    (clean_outliers [0, 10]).getD 0 0 =
      (if ([0, 10] : List ℚ).getD 0 0 ≥ upper_limit [0, 10] then upper_limit [0, 10]
       else if ([0, 10] : List ℚ).getD 0 0 ≤ lower_limit [0, 10] then lower_limit [0, 10]
       else ([0, 10] : List ℚ).getD 0 0) :=
  ⟨by simp, by simp, clean_outliers_pointwise_clamp [0, 10] (by simp) 0 (by simp)⟩

/-- Claim C3: on a non-empty numeric column, every element of the output lies in
the closed interval between the fences computed from the original input. -/
theorem clean_outliers_within_limits (xs : List ℚ) (hne : xs ≠ []) :
    ∀ v ∈ clean_outliers xs, lower_limit xs ≤ v ∧ v ≤ upper_limit xs := by
  intro v hv
  have hlu := lower_limit_le_upper_limit xs hne
  simp only [clean_outliers, List.mem_map] at hv
  obtain ⟨a, ⟨b, hb, rfl⟩, rfl⟩ := hv
  constructor <;> split_ifs <;> linarith

theorem clean_outliers_within_limits_witness :
    ([1, 2, 3] : List ℚ) ≠ [] ∧
    ∀ v ∈ clean_outliers [1, 2, 3],
      lower_limit [1, 2, 3] ≤ v ∧ v ≤ upper_limit [1, 2, 3] :=
  ⟨by simp, clean_outliers_within_limits [1, 2, 3] (by simp)⟩

/-- Claim C5: on a non-empty numeric column, the output has the same length as the
input and the element at every position of the output is the value obtained
by running the two clamping passes on the input element at that same
position. -/
theorem clean_outliers_preserves_shape (xs : List ℚ) (_hne : xs ≠ []) :
    (clean_outliers xs).length = xs.length ∧
    ∀ i : ℕ, i < xs.length →
      (clean_outliers xs).getD i 0 =
        if (if xs.getD i 0 ≥ upper_limit xs then upper_limit xs else xs.getD i 0) ≤
            lower_limit xs then lower_limit xs
        else if xs.getD i 0 ≥ upper_limit xs then upper_limit xs else xs.getD i 0 :=
  ⟨clean_outliers_length xs, fun _ hi => clean_outliers_getD xs hi⟩

theorem clean_outliers_preserves_shape_witness :
    ([1, 2, 3] : List ℚ) ≠ [] ∧
    ((clean_outliers [1, 2, 3]).length = ([1, 2, 3] : List ℚ).length ∧
    ∀ i : ℕ, i < ([1, 2, 3] : List ℚ).length →
      (clean_outliers [1, 2, 3]).getD i 0 =
        if (if ([1, 2, 3] : List ℚ).getD i 0 ≥ upper_limit [1, 2, 3] then
              upper_limit [1, 2, 3]
            else ([1, 2, 3] : List ℚ).getD i 0) ≤ lower_limit [1, 2, 3] then
          lower_limit [1, 2, 3]
        else if ([1, 2, 3] : List ℚ).getD i 0 ≥ upper_limit [1, 2, 3] then
          upper_limit [1, 2, 3]
        else ([1, 2, 3] : List ℚ).getD i 0) :=
  ⟨by simp, clean_outliers_preserves_shape [1, 2, 3] (by simp)⟩

/-- Claim C9: on a non-empty numeric column, `Q1 ≤ Q3`, hence the fences satisfy
`lower_limit ≤ upper_limit`: the clamping interval is never empty and the
two clamping passes can never contradict each other. -/
theorem clean_limits_ordered (xs : List ℚ) (hne : xs ≠ []) :
    npQuantile xs (1/4) ≤ npQuantile xs (3/4) ∧ lower_limit xs ≤ upper_limit xs :=
  ⟨q1_le_q3 xs hne, lower_limit_le_upper_limit xs hne⟩

theorem clean_limits_ordered_witness :
    ([1, 2, 3] : List ℚ) ≠ [] ∧
    (npQuantile [1, 2, 3] (1/4) ≤ npQuantile [1, 2, 3] (3/4) ∧
      lower_limit [1, 2, 3] ≤ upper_limit [1, 2, 3]) :=
  ⟨by simp, clean_limits_ordered [1, 2, 3] (by simp)⟩

/-- Claim C10: `clean_outliers` is pointwise monotone: if the input element at
position `i` is at most the input element at position `j`, the same holds of
the output elements at those positions. -/
theorem clean_outliers_pointwise_mono (xs : List ℚ) (hne : xs ≠ []) (i j : ℕ)
    (hi : i < xs.length) (hj : j < xs.length)
    (hij : xs.getD i 0 ≤ xs.getD j 0) :
    (clean_outliers xs).getD i 0 ≤ (clean_outliers xs).getD j 0 := by
  have hlu := lower_limit_le_upper_limit xs hne
  rw [clean_outliers_getD xs hi, clean_outliers_getD xs hj]
  split_ifs <;> linarith

theorem clean_outliers_pointwise_mono_witness :
    ([1, 2, 3] : List ℚ) ≠ [] ∧ 0 < ([1, 2, 3] : List ℚ).length ∧
    2 < ([1, 2, 3] : List ℚ).length ∧
    ([1, 2, 3] : List ℚ).getD 0 0 ≤ ([1, 2, 3] : List ℚ).getD 2 0 ∧
    (clean_outliers [1, 2, 3]).getD 0 0 ≤ (clean_outliers [1, 2, 3]).getD 2 0 :=
  ⟨by simp, by simp, by simp, by norm_num [List.getD],
    clean_outliers_pointwise_mono [1, 2, 3] (by simp) 0 2 (by simp) (by simp)
      (by norm_num [List.getD])⟩

lemma map_self_of_forall_eq {f : ℚ → ℚ} :
    ∀ l : List ℚ, (∀ x ∈ l, f x = x) → l.map f = l := by
  intro l h
  induction l with
  | nil => rfl
  | cons a t ih =>
    simp only [List.map_cons]
    rw [h a (by simp), ih fun x hx => h x (by simp [hx])]

lemma npQuantile_of_forall_eq (xs : List ℚ) (c : ℚ) (hne : xs ≠ [])
    (hall : ∀ v ∈ xs, v = c) (q : ℚ) (h0 : 0 ≤ q) (h1 : q ≤ 1) :
    npQuantile xs q = c := by
  have hlen : 0 < xs.length := List.length_pos.2 hne
  have hgetD : ∀ k : ℕ, k < xs.length → (sortedData xs).getD k 0 = c := by
    intro k hk
    have hk' : k < (sortedData xs).length := by rw [sortedData_length]; exact hk
    rw [List.getD_eq_getElem _ _ hk']
    exact hall _ (sortedData_mem.1 (List.getElem_mem hk'))
  have hlo := rankLo_le_last xs h0 h1
  have hhi := rankHi_le_last xs q
  rw [npQuantile, hgetD _ (by omega), hgetD _ (by omega)]
  ring

/-- Claim C6: on a column in which all values are identical, both fences equal
that common value (the interquartile range is zero) and the clip is a
no-op: the output equals the input. -/
theorem clean_outliers_constant_noop (xs : List ℚ) (c : ℚ) (hne : xs ≠ [])
    (hall : ∀ v ∈ xs, v = c) :
    lower_limit xs = c ∧ upper_limit xs = c ∧ clean_outliers xs = xs := by
  have hq1 : npQuantile xs (1/4) = c :=
    npQuantile_of_forall_eq xs c hne hall (1/4) (by norm_num) (by norm_num)
  have hq3 : npQuantile xs (3/4) = c :=
    npQuantile_of_forall_eq xs c hne hall (3/4) (by norm_num) (by norm_num)
  have hL : lower_limit xs = c := by rw [lower_limit, hq1, hq3]; ring
  have hU : upper_limit xs = c := by rw [upper_limit, hq1, hq3]; ring
  refine ⟨hL, hU, ?_⟩
  simp only [clean_outliers, List.map_map]
  apply map_self_of_forall_eq
  intro x hx
  rw [hall x hx]
  simp [Function.comp, hL, hU]

theorem clean_outliers_constant_noop_witness :
    ([5, 5, 5] : List ℚ) ≠ [] ∧ (∀ v ∈ ([5, 5, 5] : List ℚ), v = 5) ∧
    (lower_limit [5, 5, 5] = 5 ∧ upper_limit [5, 5, 5] = 5 ∧
      clean_outliers [5, 5, 5] = [5, 5, 5]) :=
  ⟨by simp, by intro v hv; rcases List.mem_cons.1 hv with h | hv <;> simp_all,
    clean_outliers_constant_noop [5, 5, 5] 5 (by simp)
      (by intro v hv; rcases List.mem_cons.1 hv with h | hv <;> simp_all)⟩

lemma ceil_eq_floor_succ {a : ℚ} (ha : ((⌊a⌋ : ℚ)) ≠ a) : ⌈a⌉ = ⌊a⌋ + 1 := by
  have h1 : ⌈a⌉ ≤ ⌊a⌋ + 1 := Int.ceil_le_floor_add_one a
  have hfl : (⌊a⌋ : ℚ) ≤ a := Int.floor_le a
  have hcl : a ≤ (⌈a⌉ : ℚ) := Int.le_ceil a
  have hlt : ⌊a⌋ < ⌈a⌉ := by
    by_contra hcon
    push_neg at hcon
    have : ((⌈a⌉ : ℤ) : ℚ) ≤ ((⌊a⌋ : ℤ) : ℚ) := by exact_mod_cast hcon
    exact ha (le_antisymm hfl (le_trans hcl this))
  omega

/-- Equivalence of the source's quantile computation with the estimator as
worded in the spec: linear interpolation between the closest ranks `⌊h⌋`
and `⌈h⌉` of the virtual position `h`. -/
lemma npQuantile_eq_specQuantile (xs : List ℚ) {q : ℚ} (h0 : 0 ≤ q) (h1 : q ≤ 1) :
    npQuantile xs q = specQuantile xs q := by
  have hcast := rankLo_cast xs h0
  push_cast at hcast
  by_cases hint : ((⌊vpos xs q⌋ : ℚ)) = vpos xs q
  · have hg : vpos xs q - (rankLo xs q : ℚ) = 0 := by rw [hcast, hint]; ring
    have hg' : vpos xs q - ((⌊vpos xs q⌋ : ℤ) : ℚ) = 0 := by rw [hint]; ring
    rw [npQuantile, specQuantile, hg, hg']
    simp [rankLo]
  · have hceil : ⌈vpos xs q⌉ = ⌊vpos xs q⌋ + 1 := ceil_eq_floor_succ hint
    have hfl : (⌊vpos xs q⌋ : ℚ) ≤ vpos xs q := Int.floor_le (vpos xs q)
    have hlt : (⌊vpos xs q⌋ : ℚ) < vpos xs q := lt_of_le_of_ne hfl hint
    have hle : vpos xs q ≤ ((xs.length - 1 : ℕ) : ℚ) := by
      have : vpos xs q ≤ 1 * ((xs.length - 1 : ℕ) : ℚ) :=
        mul_le_mul_of_nonneg_right h1 (Nat.cast_nonneg _)
      linarith
    have hflt : ⌊vpos xs q⌋ < (xs.length - 1 : ℕ) := by
      by_contra hcon
      push_neg at hcon
      have hc : ((xs.length - 1 : ℕ) : ℚ) ≤ (⌊vpos xs q⌋ : ℚ) := by exact_mod_cast hcon
      linarith
    have hlo0 : 0 ≤ ⌊vpos xs q⌋ := Int.floor_nonneg.2 (vpos_nonneg xs h0)
    have hrank : rankHi xs q = (⌈vpos xs q⌉).toNat := by
      rw [rankHi, rankLo, hceil]
      omega
    rw [npQuantile, specQuantile, hcast, hrank]
    simp only [rankLo]

/-- Claim C2: on a non-empty numeric column, `Q1` and `Q3` are the 25th and 75th
percentiles computed with linear interpolation between closest ranks, and
the fences are `Q1 - 1.5 * (Q3 - Q1)` and `Q3 + 1.5 * (Q3 - Q1)`. -/
theorem clean_limits_from_quartiles (xs : List ℚ) (_hne : xs ≠ []) :
    npQuantile xs (1/4) = specQuantile xs (1/4) ∧
    npQuantile xs (3/4) = specQuantile xs (3/4) ∧
    lower_limit xs =
      specQuantile xs (1/4) - 1.5 * (specQuantile xs (3/4) - specQuantile xs (1/4)) ∧
    upper_limit xs =
      specQuantile xs (3/4) + 1.5 * (specQuantile xs (3/4) - specQuantile xs (1/4)) := by
  have e1 : npQuantile xs (1/4) = specQuantile xs (1/4) :=
    npQuantile_eq_specQuantile xs (by norm_num) (by norm_num)
  have e3 : npQuantile xs (3/4) = specQuantile xs (3/4) :=
    npQuantile_eq_specQuantile xs (by norm_num) (by norm_num)
  exact ⟨e1, e3, by rw [lower_limit, e1, e3], by rw [upper_limit, e1, e3]⟩

theorem clean_limits_from_quartiles_witness :
    ([1, 2, 3] : List ℚ) ≠ [] ∧
    (npQuantile [1, 2, 3] (1/4) = specQuantile [1, 2, 3] (1/4) ∧
      npQuantile [1, 2, 3] (3/4) = specQuantile [1, 2, 3] (3/4) ∧
      lower_limit [1, 2, 3] =
        specQuantile [1, 2, 3] (1/4) -
          1.5 * (specQuantile [1, 2, 3] (3/4) - specQuantile [1, 2, 3] (1/4)) ∧
      upper_limit [1, 2, 3] =
        specQuantile [1, 2, 3] (3/4) +
          1.5 * (specQuantile [1, 2, 3] (3/4) - specQuantile [1, 2, 3] (1/4))) :=
  ⟨by simp, clean_limits_from_quartiles [1, 2, 3] (by simp)⟩

lemma toNums_eq_none {xs : List Entry} {e : Entry} (he : e ∈ xs)
    (hnum : e.toNum = none) : toNums xs = none := by
  induction xs with
  | nil => cases he
  | cons a t ih =>
    rcases List.mem_cons.1 he with rfl | hmem
    · rcases h : toNums t with _ | vs <;> simp [toNums, hnum, h]
    · rcases h : a.toNum with _ | v <;> simp [toNums, ih hmem, h]

/-- Claim C8: applied to a column containing an entry that cannot be interpreted
as a real number, `clean_outliers` fails with the invalid-input error. -/
theorem clean_outliers_invalid_fails (xs : List Entry) (e : Entry) (he : e ∈ xs)
    (hnum : e.toNum = none) :
    clean_outliers_checked xs = .error .invalidInput := by
  simp [clean_outliers_checked, toNums_eq_none he hnum]

theorem clean_outliers_invalid_fails_witness :
    Entry.text "abc" ∈ [Entry.num 1, Entry.text "abc"] ∧
    (Entry.text "abc").toNum = none ∧
    clean_outliers_checked [Entry.num 1, Entry.text "abc"] = .error .invalidInput :=
  ⟨by simp, rfl,
    clean_outliers_invalid_fails [Entry.num 1, Entry.text "abc"] (Entry.text "abc")
      (by simp) rfl⟩

end Visualisation
